import Mathlib

/-!
Shallow embedding of `tracker.py`, a personal time-tracking utility.

The persisted database is a JSON object mapping the reserved key `"active"`
to an in-flight session object and date keys (`YYYY-MM-DD`) to per-category
accumulated durations in seconds.  Python dicts are insertion ordered with
unique keys; we model them as association lists together with the
dict-faithful operations below (update-in-place-or-append, remove, lookup).
Timestamps and durations (Python floats from `time.time()`) are modelled as
rationals; the time line is "seconds since 0000-01-01 local time", which only
shifts the epoch and is irrelevant to every comparison the program makes.
-/

/-- Python `d[k]` as an association-list lookup (first binding wins; in a
dict keys are unique so this is exact). -/
def alookup {α : Type} (l : List (String × α)) (k : String) : Option α :=
  match l with
  | [] => none
  | p :: t => if p.1 = k then some p.2 else alookup t k

/-- Python `d[k] = v`: replace the binding in place if the key is present,
otherwise append the new binding at the end (dict insertion order). -/
def setKey {α : Type} (l : List (String × α)) (k : String) (v : α) : List (String × α) :=
  match l with
  | [] => [(k, v)]
  | p :: t => if p.1 = k then (k, v) :: t else p :: setKey t k v

/-- Python `d.pop(k)`: remove the binding of `k`, keeping every other binding
in place. -/
def removeKey {α : Type} (l : List (String × α)) (k : String) : List (String × α) :=
  match l with
  | [] => []
  | p :: t => if p.1 = k then t else p :: removeKey t k

/-- Keys of an association list, in order. -/
def keysOf {α : Type} (l : List (String × α)) : List String :=
  l.map Prod.fst

/-- One day's per-category accumulated seconds (`db["YYYY-MM-DD"]`). -/
abbrev CatMap := List (String × Rat)

/-- The `daily_logs` accumulator of `generate_report`. -/
abbrev Daily := List (String × CatMap)

/-- The `totals` accumulator of `generate_report`. -/
abbrev Totals := List (String × Rat)

/-- `db[date_str][category] = db[date_str].get(category, 0) + duration`. -/
def bump (m : CatMap) (k : String) (v : Rat) : CatMap :=
  setKey m k (((alookup m k).getD 0) + v)

/-- The active session object `{"category": ..., "start": ...}`. -/
structure Session where
  category : String
  start : Rat
deriving DecidableEq, Repr

/-- A top-level value of the database object: the session object stored under
the reserved key `"active"`, or a per-category map stored under a date key. -/
inductive Val where
  | sess (s : Session)
  | day (m : CatMap)
deriving DecidableEq, Repr

/-- The persisted database: a JSON object, i.e. an insertion-ordered mapping
from strings to values. -/
abbrev DB := List (String × Val)

/-- Shape check: is this value a session object? -/
def isSessB : Val → Bool
  | .sess _ => true
  | .day _ => false

/-- Well-formed databases: unique keys, the reserved key `"active"` (if
present) holds the session object, every other key holds a per-category map.
Every state the program itself writes satisfies this. -/
def WF (db : DB) : Prop :=
  (keysOf db).Nodup ∧
    db.all (fun p => if p.1 = "active" then isSessB p.2 else !isSessB p.2) = true

instance (db : DB) : Decidable (WF db) :=
  inferInstanceAs (Decidable (_ ∧ _))

/-- Error conditions of the tracker, named as in the specification.
`typeError` models the uncaught Python `TypeError` that would be raised if an
ill-typed (non-well-formed) state were loaded; it is unreachable from states
the program writes. -/
inductive TrackerError where
  | alreadyRunning
  | noActiveSession
  | corruptState
  | typeError
deriving DecidableEq, Repr

/-! ### Date parsing (`datetime.strptime(date_str, "%Y-%m-%d")`)

A date key parses when it has the exact shape `YYYY-MM-DD` (digits and
dashes) and denotes a valid proleptic-Gregorian calendar date; the result is
the day count since 0000-01-01.  `strptime` builds a `datetime` at midnight
of that day, which `generate_report` compares against `datetime.now()`; we
mirror this by placing day `N` at second `86400 * N` of the time line. -/

/-- Numeric value of a decimal digit character. -/
def digitVal (c : Char) : Nat := c.toNat - 48

/-- Is `c` one of `'0'`..`'9'`? -/
def isDigitB (c : Char) : Bool := 48 ≤ c.toNat && c.toNat ≤ 57

/-- Gregorian leap-year test (as in Python's `calendar.isleap`). -/
def isLeap (y : Nat) : Bool := (y % 4 == 0 && y % 100 != 0) || y % 400 == 0

/-- Cumulative day count before month `m` in a common year. -/
def daysBeforeMonthBase (m : Nat) : Nat :=
  match m with
  | 1 => 0 | 2 => 31 | 3 => 59 | 4 => 90 | 5 => 120 | 6 => 151
  | 7 => 181 | 8 => 212 | 9 => 243 | 10 => 273 | 11 => 304 | 12 => 334
  | _ => 0

/-- Cumulative day count before month `m` of year `y`. -/
def daysBeforeMonth (y m : Nat) : Nat :=
  daysBeforeMonthBase m + (if isLeap y = true ∧ 3 ≤ m then 1 else 0)

/-- Number of days in month `m` of year `y`. -/
def monthLen (y m : Nat) : Nat :=
  match m with
  | 1 => 31 | 2 => if isLeap y then 29 else 28 | 3 => 31 | 4 => 30
  | 5 => 31 | 6 => 30 | 7 => 31 | 8 => 31 | 9 => 30 | 10 => 31
  | 11 => 30 | 12 => 31
  | _ => 0

/-- Days from 0000-01-01 to the start of year `y` (proleptic Gregorian):
365 per year plus one per leap year among `0, ..., y-1`. -/
def daysBeforeYear (y : Nat) : Nat :=
  365 * y + (y + 3) / 4 - (y + 99) / 100 + (y + 399) / 400

/-- Day count since 0000-01-01 of the calendar date `y-m-d`. -/
def toDays (y m d : Nat) : Nat :=
  daysBeforeYear y + daysBeforeMonth y m + (d - 1)

/-- Parse a `YYYY-MM-DD` character list to its day count, rejecting any other
shape and any invalid calendar date. -/
def parseDateChars : List Char → Option Nat
  | [c1, c2, c3, c4, h1, c5, c6, h2, c7, c8] =>
    if h1 = '-' ∧ h2 = '-' ∧ isDigitB c1 = true ∧ isDigitB c2 = true ∧
        isDigitB c3 = true ∧ isDigitB c4 = true ∧ isDigitB c5 = true ∧
        isDigitB c6 = true ∧ isDigitB c7 = true ∧ isDigitB c8 = true then
      let y := 1000 * digitVal c1 + 100 * digitVal c2 + 10 * digitVal c3 + digitVal c4
      let m := 10 * digitVal c5 + digitVal c6
      let d := 10 * digitVal c7 + digitVal c8
      if 1 ≤ m ∧ m ≤ 12 ∧ 1 ≤ d ∧ d ≤ monthLen y m then some (toDays y m d)
      else none
    else none
  | _ => none

/-- `datetime.strptime(s, "%Y-%m-%d")`, returning the parsed date's day count
(`none` models the `ValueError` that `generate_report` catches and skips). -/
def parseDate (s : String) : Option Nat :=
  parseDateChars s.data

/-! ### The ledger store (`load_db`, `save_db`, `start_timer`, `stop_timer`) -/

/-- The persisted file as the store finds it: absent, present but not valid
JSON, or valid JSON decoding to a database object. -/
inductive FileState where
  | missing
  | corrupt
  | valid (db : DB)

/-- `load_db`: an absent file yields the empty database (fresh start); a file
that `json.load` cannot parse raises an error that propagates uncaught -- the
specification's `CorruptStateError`; otherwise the decoded object. -/
def load_db : FileState → Except TrackerError DB
  | .missing => .ok []
  | .corrupt => .error .corruptState
  | .valid db => .ok db

/-- File contents a concurrent reader can observe while `save_db` runs, in
order: `open(DB_PATH, 'w')` truncates the file to the empty string at once,
then `json.dump` writes the serialized database (here abstracted as the
string `new`) left to right, and the final content is exactly `new`.  So the
observable contents are precisely the prefixes of `new`. -/
def save_db_observable (new : String) : List String :=
  (List.range (new.data.length + 1)).map (fun n => { data := new.data.take n })

/-- Claim under test for the save path: every file content observable during
a save of `new` over prior content `old` is either `old` or `new`, i.e. the
write is atomic (write-to-temp-then-rename or equivalent). -/
def SaveIsAtomic : Prop :=
  ∀ (old new : String), ∀ s ∈ save_db_observable new, s = old ∨ s = new

/-- Result of `start_timer`: the database as left on disk, the reported error
(if any), and whether `save_db` was called. -/
structure StartResult where
  db : DB
  error : Option TrackerError
  saved : Bool
deriving Repr

/-- `start_timer(category)`: refuse if a session is active, else record
`{"category": category, "start": now}` under `"active"` and save. -/
def start_timer (db : DB) (category : String) (now : Rat) : StartResult :=
  if (alookup db "active").isSome then
    ⟨db, some .alreadyRunning, false⟩
  else
    ⟨setKey db "active" (.sess ⟨category, now⟩), none, true⟩

/-! ### The report generator (`generate_report`) -/

/-- Is the parsed date inside the report window, i.e. does
`start <= date_obj <= end` hold for `end = now`,
`start = now - timedelta(days=7)` and `date_obj` midnight of day `N`? -/
def inWindowB (now : Rat) (N : Nat) : Bool :=
  decide (now - 604800 ≤ 86400 * (N : Rat)) && decide (86400 * (N : Rat) ≤ now)

/-- Body of the inner loop of `generate_report`, for the date key `k`:
`totals[cat] = totals.get(cat, 0) + secs`, then
`if date_str not in daily_logs: daily_logs[date_str] = {}`, then
`daily_logs[date_str][cat] = daily_logs[date_str].get(cat, 0) + secs`. -/
def innerStep (k : String) (acc : Totals × Daily) (p : String × Rat) : Totals × Daily :=
  let totals := bump acc.1 p.1 p.2
  let daily0 := if (alookup acc.2 k).isSome then acc.2 else acc.2 ++ [(k, [])]
  (totals, setKey daily0 k (bump ((alookup daily0 k).getD []) p.1 p.2))

/-- Body of the outer loop of `generate_report`: skip the reserved key
`"active"`, skip keys that fail to parse as dates, skip out-of-window dates,
and otherwise fold the day's entries.  A session object under a date key
would be a runtime `TypeError`; it cannot occur in a well-formed database and
is skipped here. -/
def outerStep (now : Rat) (acc : Totals × Daily) (e : String × Val) : Totals × Daily :=
  if e.1 = "active" then acc
  else
    match parseDate e.1 with
    | none => acc
    | some N =>
      if inWindowB now N then
        match e.2 with
        | .day m => m.foldl (innerStep e.1) acc
        | .sess _ => acc
      else acc

/-- The aggregation phase of `generate_report`: the `totals` and `daily_logs`
dictionaries after the loop over `db.items()`. -/
def aggregate (db : DB) (now : Rat) : Totals × Daily :=
  db.foldl (outerStep now) ([], [])

/-- Python's `round(x, 2)` on exact rationals: round `100 * x` to the nearest
integer, ties to even. -/
def round2 (x : Rat) : Rat :=
  let y := 100 * x
  let n : Int := y.floor
  let r := y - n
  if r < 1 / 2 then (n : Rat) / 100
  else if 1 / 2 < r then ((n : Rat) + 1) / 100
  else if n % 2 = 0 then (n : Rat) / 100 else ((n : Rat) + 1) / 100

/-- The rendered report: the chart input (categories with rounded hours, in
accumulation order), the rows of the top-level markdown table (sorted by
descending hours), and the Daily Logs subsections (days sorted descending,
each day's rows in the mapping's order). -/
structure Report where
  hours : List (String × Rat)
  table_rows : List (String × Rat)
  day_sections : List (String × CatMap)
deriving DecidableEq, Repr

/-- `generate_report`: aggregate the trailing-7-day window; if `totals` is
empty, print "no data" and return without writing any artifact; otherwise
render the chart and the markdown (written to both the summary file and the
readme).  `sorted(hours.items(), key=lambda x: -x[1])` is a stable sort by
descending rounded hours; `sorted(daily_logs.keys(), reverse=True)` sorts the
day keys in descending string order. -/
def generate_report (db : DB) (now : Rat) : Option Report :=
  let acc := aggregate db now
  let totals := acc.1
  let daily_logs := acc.2
  if totals.isEmpty then none
  else
    let hours := totals.map (fun p => (p.1, round2 (p.2 / 3600)))
    some
      { hours := hours
        table_rows := hours.mergeSort (fun a b => decide (b.2 ≤ a.2))
        day_sections := daily_logs.mergeSort (fun a b => decide (b.1 ≤ a.1)) }

/-- Result of `stop_timer`: the database as left on disk, the reported error
(if any), whether `save_db` was called, and the report artifacts regenerated
(if any). -/
structure StopResult where
  db : DB
  error : Option TrackerError
  saved : Bool
  report : Option Report

/-- `stop_timer()`: refuse if no session is active; otherwise pop the session,
compute `duration = now - session["start"]`, add it to
`db[today][category]` (creating entries as needed), save, and regenerate the
report.  `today` is the `strftime('%Y-%m-%d')` key of the moment `stop` runs;
`generate_report` re-reads the file just saved, hence runs on the new
database. -/
def stop_timer (db : DB) (now : Rat) (today : String) : StopResult :=
  match alookup db "active" with
  | none => ⟨db, some .noActiveSession, false, none⟩
  | some (.day _) => ⟨db, some .typeError, false, none⟩
  | some (.sess s) =>
    let db1 := removeKey db "active"
    let duration := now - s.start
    let m := match alookup db1 today with
      | some (.day m) => m
      | some (.sess _) => []
      | none => []
    let db2 := setKey db1 today (.day (bump m s.category duration))
    ⟨db2, none, true, generate_report db2 now⟩

/-- Accumulated duration read off a database: `db[k][c]` with default `0`. -/
def dayVal (db : DB) (k c : String) : Rat :=
  match alookup db k with
  | some (.day m) => (alookup m c).getD 0
  | _ => 0

/-- All accumulated duration values in the database are non-negative. -/
def valNonneg : Val → Bool
  | .sess _ => true
  | .day m => m.all (fun q => decide (0 ≤ q.2))

/-- Every accumulated duration value stored in the database is non-negative. -/
def dbNonneg (db : DB) : Bool :=
  db.all (fun p => valNonneg p.2)

/-- A database entry qualifies for the daily logs of the report at `now`
under the key `s`: it is the entry of `s`, the key is not the reserved
`"active"`, it parses to an in-window date and it has at least one category
entry. -/
def dailyQualifies (now : Rat) (s : String) (p : String × Val) : Prop :=
  p.1 = s ∧ s ≠ "active" ∧
    (∃ N, parseDate s = some N ∧ inWindowB now N = true) ∧
    ∃ m, p.2 = Val.day m ∧ m ≠ []

/-- The claim under test for the report window boundary: a ledger entry
whose date key is exactly 7 days before `now` (i.e. `now - 7 days` falls on
that calendar date) contributes to the report's daily logs. -/
def ClaimC1Exact7 : Prop :=
  ∀ (db : DB) (now : Rat) (s : String) (N : Nat) (m : CatMap),
    (keysOf db).Nodup → alookup db s = some (.day m) → m ≠ [] →
    parseDate s = some N →
    86400 * (N : Rat) ≤ now - 604800 → now - 604800 < 86400 * ((N : Rat) + 1) →
    (alookup (aggregate db now).2 s).isSome = true

/-- States reachable by running the tracker from a fresh start, at
non-decreasing wall-clock times: the empty database, then any sequence of
`start`, `stop` and `report` invocations.  A `stop` step's date key is a
`strftime('%Y-%m-%d')` output, so it parses as a date; `report` leaves the
database unchanged. -/
inductive Reach : DB × Rat → Prop where
  | init (t : Rat) : Reach ([], t)
  | start {db : DB} {t : Rat} (c : String) {t' : Rat} :
      Reach (db, t) → t ≤ t' → Reach ((start_timer db c t').db, t')
  | stop {db : DB} {t : Rat} {t' : Rat} {today : String} :
      Reach (db, t) → t ≤ t' → (parseDate today).isSome →
      Reach ((stop_timer db t' today).db, t')
  | report {db : DB} {t : Rat} {t' : Rat} :
      Reach (db, t) → t ≤ t' → Reach (db, t')


/-! ### Association-list lemmas -/

theorem alookup_setKey_self {α : Type} (l : List (String × α)) (k : String) (v : α) :
    alookup (setKey l k v) k = some v := by
  induction l with
  | nil => simp [setKey, alookup]
  | cons p t ih =>
    by_cases h : p.1 = k <;> simp [setKey, alookup, h, ih]

theorem alookup_setKey_ne {α : Type} (l : List (String × α)) (k s : String) (v : α)
    (h : s ≠ k) : alookup (setKey l k v) s = alookup l s := by
  have hks : ¬ k = s := fun hh => h hh.symm
  induction l with
  | nil => simp [setKey, alookup, hks]
  | cons p t ih =>
    by_cases hp : p.1 = k
    · simp [setKey, alookup, hp, hks]
    · simp only [setKey, if_neg hp, alookup]
      by_cases hs : p.1 = s <;> simp [hs, ih]

theorem alookup_removeKey_ne {α : Type} (l : List (String × α)) (k s : String)
    (h : s ≠ k) : alookup (removeKey l k) s = alookup l s := by
  have hks : ¬ k = s := fun hh => h hh.symm
  induction l with
  | nil => simp [removeKey]
  | cons p t ih =>
    by_cases hp : p.1 = k
    · have hps : ¬ p.1 = s := fun hh => h (hh.symm.trans hp)
      simp [removeKey, alookup, hp, hps, hks]
    · simp only [removeKey, if_neg hp, alookup]
      by_cases hs : p.1 = s <;> simp [hs, ih]

theorem alookup_eq_none_of_not_mem {α : Type} (l : List (String × α)) (k : String)
    (h : k ∉ keysOf l) : alookup l k = none := by
  induction l with
  | nil => rfl
  | cons p t ih =>
    simp only [keysOf, List.map_cons, List.mem_cons, not_or] at h
    have hp : ¬ p.1 = k := fun hh => h.1 hh.symm
    simp only [alookup, if_neg hp]
    exact ih (by simpa [keysOf] using h.2)

theorem alookup_removeKey_self {α : Type} (l : List (String × α)) (k : String)
    (hnd : (keysOf l).Nodup) : alookup (removeKey l k) k = none := by
  induction l with
  | nil => rfl
  | cons p t ih =>
    simp only [keysOf, List.map_cons, List.nodup_cons] at hnd
    by_cases hp : p.1 = k
    · simpa [removeKey, hp] using alookup_eq_none_of_not_mem t k (hp ▸ hnd.1)
    · simp [removeKey, hp, alookup, ih hnd.2]

theorem mem_of_alookup_eq_some {α : Type} {l : List (String × α)} {k : String} {v : α}
    (h : alookup l k = some v) : (k, v) ∈ l := by
  induction l with
  | nil => simp [alookup] at h
  | cons p t ih =>
    by_cases hp : p.1 = k
    · simp only [alookup, if_pos hp] at h
      cases h
      obtain ⟨p1, p2⟩ := p
      simp only at hp
      subst hp
      exact List.mem_cons_self _ _
    · simp only [alookup, if_neg hp] at h
      exact List.mem_cons_of_mem _ (ih h)

theorem mem_keysOf_of_alookup {α : Type} {l : List (String × α)} {k : String} {v : α}
    (h : alookup l k = some v) : k ∈ keysOf l := by
  simpa [keysOf] using List.mem_map_of_mem Prod.fst (mem_of_alookup_eq_some h)

theorem alookup_eq_some_of_mem {α : Type} {l : List (String × α)} {k : String} {v : α}
    (hnd : (keysOf l).Nodup) (hm : (k, v) ∈ l) : alookup l k = some v := by
  induction l with
  | nil => simp at hm
  | cons p t ih =>
    simp only [keysOf, List.map_cons, List.nodup_cons] at hnd
    rcases List.mem_cons.mp hm with h | h
    · simp [alookup, ← h]
    · have hk : k ∈ keysOf t := by
        simpa [keysOf] using List.mem_map_of_mem Prod.fst h
      have hp : ¬ p.1 = k := fun hh => hnd.1 (hh ▸ hk)
      simp [alookup, hp, ih hnd.2 h]

theorem isSome_alookup_iff {α : Type} (l : List (String × α)) (k : String) :
    (alookup l k).isSome = true ↔ k ∈ keysOf l := by
  induction l with
  | nil => simp [alookup, keysOf]
  | cons p t ih =>
    by_cases hp : p.1 = k
    · simp [alookup, hp, keysOf]
    · have hk : ¬ k = p.1 := fun hh => hp hh.symm
      simp only [alookup, if_neg hp, keysOf, List.map_cons, List.mem_cons]
      simp only [keysOf] at ih
      simp [ih, hk]

theorem keysOf_setKey {α : Type} (l : List (String × α)) (k : String) (v : α) :
    keysOf (setKey l k v) = keysOf l ∨
      (keysOf (setKey l k v) = keysOf l ++ [k] ∧ k ∉ keysOf l) := by
  induction l with
  | nil =>
    right
    simp [setKey, keysOf]
  | cons p t ih =>
    by_cases hp : p.1 = k
    · left
      simp [setKey, keysOf, hp]
    · rcases ih with h | h
      · left
        simp only [setKey, if_neg hp, keysOf, List.map_cons]
        simp only [keysOf] at h
        rw [h]
      · right
        simp only [setKey, if_neg hp, keysOf, List.map_cons, List.mem_cons, not_or]
        simp only [keysOf] at h
        refine ⟨?_, fun hh => hp hh.symm, h.2⟩
        rw [h.1]
        simp

theorem nodup_keysOf_setKey {α : Type} (l : List (String × α)) (k : String) (v : α)
    (hnd : (keysOf l).Nodup) : (keysOf (setKey l k v)).Nodup := by
  rcases keysOf_setKey l k v with h | h
  · simpa [h] using hnd
  · rw [h.1]
    refine hnd.append (List.nodup_singleton k) ?_
    intro a ha hb
    rw [List.mem_singleton] at hb
    subst hb
    exact h.2 ha

theorem mem_setKey {α : Type} {l : List (String × α)} {k : String} {v : α} {p : String × α}
    (hp : p ∈ setKey l k v) : p ∈ l ∨ p = (k, v) := by
  induction l with
  | nil => simp only [setKey, List.mem_singleton] at hp; exact .inr hp
  | cons q t ih =>
    by_cases hq : q.1 = k
    · simp only [setKey, if_pos hq, List.mem_cons] at hp
      rcases hp with h | h
      · exact .inr h
      · exact .inl (List.mem_cons_of_mem _ h)
    · simp only [setKey, if_neg hq, List.mem_cons] at hp
      rcases hp with h | h
      · exact .inl (h ▸ List.mem_cons_self _ _)
      · rcases ih h with h' | h'
        · exact .inl (List.mem_cons_of_mem _ h')
        · exact .inr h'

/-! ### Simple facts about the operations -/

theorem parseDate_isSome_ne_active {s : String} (h : (parseDate s).isSome) : s ≠ "active" := by
  intro hh
  subst hh
  simp [parseDate, parseDateChars] at h

/-- C3: starting while a session is active is refused with
`AlreadyRunningError` and performs no write at all: the database on disk
(including the recorded active session) is exactly the prior one and
`save_db` is not called. -/
theorem start_timer_already_running (db : DB) (c : String) (now : Rat) (v : Val)
    (h : alookup db "active" = some v) :
    start_timer db c now = ⟨db, some .alreadyRunning, false⟩ := by
  simp [start_timer, h]

/-- C3 witness: a concrete database with an active session. -/
theorem start_timer_already_running_witness :
    start_timer [("active", Val.sess ⟨"coding", 100⟩)] "writing" 200 =
      ⟨[("active", Val.sess ⟨"coding", 100⟩)], some .alreadyRunning, false⟩ :=
  start_timer_already_running _ "writing" 200 (Val.sess ⟨"coding", 100⟩) rfl

/-- C6: stopping with no active session is refused with
`NoActiveSessionError`; the database is unchanged, nothing is saved, and no
report artifact is regenerated. -/
theorem stop_timer_no_active_session (db : DB) (now : Rat) (today : String)
    (h : alookup db "active" = none) :
    stop_timer db now today = ⟨db, some .noActiveSession, false, none⟩ := by
  simp [stop_timer, h]

/-- C6 witness: stopping on a concrete database with no active session. -/
theorem stop_timer_no_active_session_witness :
    stop_timer [("2024-06-15", Val.day [("coding", 3600)])] 500 "2024-06-15" =
      ⟨[("2024-06-15", Val.day [("coding", 3600)])], some .noActiveSession, false, none⟩ :=
  stop_timer_no_active_session _ 500 "2024-06-15" rfl

/-- C7: loading with no persisted file yields the empty ledger (never an
error), and loading a file that is not valid structured data fails with
`CorruptStateError`. -/
theorem load_db_missing_or_corrupt :
    load_db .missing = .ok [] ∧ load_db .corrupt = .error .corruptState :=
  ⟨rfl, rfl⟩

/-- C10: with no active session, `start` succeeds for every category string
-- the empty string included, since no operation validates the category --
and records the active session `{category, start = now}`, changing nothing
else. -/
theorem start_timer_records (db : DB) (c : String) (now : Rat)
    (h : alookup db "active" = none) :
    (start_timer db c now).error = none ∧
      (start_timer db c now).saved = true ∧
      alookup (start_timer db c now).db "active" = some (.sess ⟨c, now⟩) ∧
      ∀ k, k ≠ "active" → alookup (start_timer db c now).db k = alookup db k := by
  have hns : ¬ (alookup db "active").isSome = true := by simp [h]
  refine ⟨by simp [start_timer, hns], by simp [start_timer, hns], ?_, ?_⟩
  · simp [start_timer, hns, alookup_setKey_self]
  · intro k hk
    simp [start_timer, hns, alookup_setKey_ne db "active" k _ hk]

/-- C10 witness: starting with the empty-string category on a concrete
database with no active session. -/
theorem start_timer_records_witness :
    (start_timer [("2024-06-15", Val.day [("coding", 3600)])] "" 250).error = none ∧
      (start_timer [("2024-06-15", Val.day [("coding", 3600)])] "" 250).saved = true ∧
      alookup (start_timer [("2024-06-15", Val.day [("coding", 3600)])] "" 250).db "active" =
        some (.sess ⟨"", 250⟩) ∧
      ∀ k, k ≠ "active" →
        alookup (start_timer [("2024-06-15", Val.day [("coding", 3600)])] "" 250).db k =
          alookup [("2024-06-15", Val.day [("coding", 3600)])] k :=
  start_timer_records _ "" 250 rfl

/-- C2: stopping an active session `{c, st}` at time `now` succeeds, saves,
removes the active session, adds `now - st` to today's total for `c`
(creating the day and category entries as needed, never overwriting), and
changes no other date or category entry. -/
theorem stop_timer_records (db : DB) (now : Rat) (today c : String) (st : Rat)
    (hnd : (keysOf db).Nodup) (htoday : (parseDate today).isSome)
    (hact : alookup db "active" = some (.sess ⟨c, st⟩)) :
    (stop_timer db now today).error = none ∧
      (stop_timer db now today).saved = true ∧
      alookup (stop_timer db now today).db "active" = none ∧
      dayVal (stop_timer db now today).db today c = dayVal db today c + (now - st) ∧
      (∀ k, k ≠ "active" → k ≠ today →
        alookup (stop_timer db now today).db k = alookup db k) ∧
      (∀ c2, c2 ≠ c →
        dayVal (stop_timer db now today).db today c2 = dayVal db today c2) := by
  have hta : today ≠ "active" := parseDate_isSome_ne_active htoday
  have hat : ("active" : String) ≠ today := fun hh => hta hh.symm
  have hdb1 : alookup (removeKey db "active") today = alookup db today :=
    alookup_removeKey_ne db "active" today hta
  refine ⟨by simp [stop_timer, hact], by simp [stop_timer, hact], ?_, ?_, ?_, ?_⟩
  · simp only [stop_timer, hact]
    rw [alookup_setKey_ne _ today "active" _ hat]
    exact alookup_removeKey_self db "active" hnd
  · simp only [stop_timer, hact, dayVal]
    rw [alookup_setKey_self]
    rw [hdb1]
    cases hv : alookup db today with
    | none => simp [bump, alookup, alookup_setKey_self]
    | some v =>
      cases v with
      | day m => simp [bump, alookup_setKey_self]
      | sess s => simp [bump, alookup, alookup_setKey_self]
  · intro k hk hkt
    simp only [stop_timer, hact]
    rw [alookup_setKey_ne _ today k _ hkt, alookup_removeKey_ne db "active" k hk]
  · intro c2 hc2
    have hcc : ¬ c = c2 := fun hh => hc2 hh.symm
    simp only [stop_timer, hact, dayVal]
    rw [alookup_setKey_self]
    rw [hdb1]
    cases hv : alookup db today with
    | none => simp [bump, alookup_setKey_ne _ c c2 _ hc2, alookup, hcc]
    | some v =>
      cases v with
      | day m => simp [bump, alookup_setKey_ne _ c c2 _ hc2]
      | sess s => simp [bump, alookup_setKey_ne _ c c2 _ hc2, alookup, hcc]

/-- C2 witness: stopping a concrete session adds the elapsed time to today's
existing total for the category. -/
theorem stop_timer_records_witness :
    (keysOf [("active", Val.sess ⟨"coding", 100⟩),
        ("2024-06-15", Val.day [("coding", 3600)])]).Nodup ∧
      ((stop_timer [("active", Val.sess ⟨"coding", 100⟩),
          ("2024-06-15", Val.day [("coding", 3600)])] 1900 "2024-06-15").error = none ∧
        (stop_timer [("active", Val.sess ⟨"coding", 100⟩),
          ("2024-06-15", Val.day [("coding", 3600)])] 1900 "2024-06-15").saved = true ∧
        alookup (stop_timer [("active", Val.sess ⟨"coding", 100⟩),
          ("2024-06-15", Val.day [("coding", 3600)])] 1900 "2024-06-15").db "active" = none ∧
        dayVal (stop_timer [("active", Val.sess ⟨"coding", 100⟩),
            ("2024-06-15", Val.day [("coding", 3600)])] 1900 "2024-06-15").db
            "2024-06-15" "coding" =
          dayVal [("active", Val.sess ⟨"coding", 100⟩),
            ("2024-06-15", Val.day [("coding", 3600)])] "2024-06-15" "coding" + (1900 - 100) ∧
        (∀ k, k ≠ "active" → k ≠ "2024-06-15" →
          alookup (stop_timer [("active", Val.sess ⟨"coding", 100⟩),
            ("2024-06-15", Val.day [("coding", 3600)])] 1900 "2024-06-15").db k =
            alookup [("active", Val.sess ⟨"coding", 100⟩),
              ("2024-06-15", Val.day [("coding", 3600)])] k) ∧
        (∀ c2, c2 ≠ "coding" →
          dayVal (stop_timer [("active", Val.sess ⟨"coding", 100⟩),
              ("2024-06-15", Val.day [("coding", 3600)])] 1900 "2024-06-15").db
              "2024-06-15" c2 =
            dayVal [("active", Val.sess ⟨"coding", 100⟩),
              ("2024-06-15", Val.day [("coding", 3600)])] "2024-06-15" c2)) :=
  ⟨by decide,
    stop_timer_records _ 1900 "2024-06-15" "coding" 100 (by decide) (by decide) rfl⟩

/-! ### C4: the save path is not atomic -/

/-- C4 counterexample: saving the two-character content `"ab"` over prior
content `"x"` lets a concurrent reader observe the empty file, which is
neither the old nor the new content; so `save_db` is not atomic. -/
theorem save_db_not_atomic : ¬ SaveIsAtomic := by
  intro h
  have hmem : "" ∈ save_db_observable "ab" := by decide
  rcases h "x" "ab" "" hmem with h1 | h1 <;> simp at h1

/-- C4 amended: `save_db` truncates the file and then writes the new
serialized content sequentially, overwriting prior content: the first
observable file content is empty, the last is exactly the new content, and
every observable content is a prefix of the new content.  A concurrent
reader can therefore observe a half-written file. -/
theorem save_db_truncates_then_writes (new : String) :
    (save_db_observable new).head? = some "" ∧
      (save_db_observable new).getLast? = some new ∧
      ∀ s ∈ save_db_observable new, s.data <+: new.data := by
  refine ⟨?_, ?_, ?_⟩
  · rw [save_db_observable, List.head?_map, List.range_succ_eq_map]
    rfl
  · rw [save_db_observable, List.getLast?_map, List.range_succ, List.getLast?_concat]
    show some (String.mk (new.data.take new.data.length)) = some new
    rw [List.take_length]
  · intro s hs
    rw [save_db_observable, List.mem_map] at hs
    obtain ⟨n, _, rfl⟩ := hs
    exact List.take_prefix n new.data

/-- C4 amended witness: a concrete observable state during a concrete save
is a strict prefix of the new content. -/
theorem save_db_truncates_then_writes_witness :
    ("a" ∈ save_db_observable "ab") ∧ "a".data <+: "ab".data :=
  ⟨by decide, (save_db_truncates_then_writes "ab").2.2 "a" (by decide)⟩

/-! ### C8: an empty window generates nothing -/

theorem aggregate_of_empty_window (db : DB) (now : Rat)
    (h : ∀ p ∈ db, ∀ N, parseDate p.1 = some N → inWindowB now N = true →
      ∀ m, p.2 = Val.day m → m = []) :
    aggregate db now = ([], []) := by
  induction db with
  | nil => rfl
  | cons p t ih =>
    have hstep : outerStep now ([], []) p = ([], []) := by
      unfold outerStep
      by_cases ha : p.1 = "active"
      · simp [ha]
      · simp only [ha, if_false]
        cases hp : parseDate p.1 with
        | none => rfl
        | some N =>
          by_cases hw : inWindowB now N = true
          · simp only [hw, if_true]
            cases hv : p.2 with
            | sess s => rfl
            | day m =>
              have hm : m = [] := h p (List.mem_cons_self _ _) N hp hw m hv
              subst hm
              rfl
          · simp [hw]
    show List.foldl (outerStep now) ([], []) (p :: t) = ([], [])
    rw [List.foldl_cons, hstep]
    exact ih (fun q hq => h q (List.mem_cons_of_mem _ hq))

/-- C8: if no ledger entry falls inside the trailing 7-day window, report
generation is a no-op: it returns without rendering the chart or writing the
summary or readme, so every previously generated artifact is left as it
was. -/
theorem generate_report_empty_window (db : DB) (now : Rat)
    (h : ∀ p ∈ db, ∀ N, parseDate p.1 = some N → inWindowB now N = true →
      ∀ m, p.2 = Val.day m → m = []) :
    generate_report db now = none := by
  unfold generate_report
  rw [aggregate_of_empty_window db now h]
  rfl

/-- C8 witness: a ledger whose single entry is months older than the window
generates no artifacts. -/
theorem generate_report_empty_window_witness :
    (∀ p ∈ [("2024-01-01", Val.day [("coding", (100 : Rat))])], ∀ N,
      parseDate p.1 = some N → inWindowB (86400 * 739417 + 43200) N = true →
      ∀ m, p.2 = Val.day m → m = []) ∧
    generate_report [("2024-01-01", Val.day [("coding", (100 : Rat))])]
      (86400 * 739417 + 43200) = none :=
  ⟨by
    intro p hp N hN hw m hm
    simp only [List.mem_singleton] at hp
    subst hp
    simp only at hN
    have hNv : parseDate "2024-01-01" = some 739251 := by decide
    rw [hNv] at hN
    have hN' : N = 739251 := (Option.some.inj hN).symm
    subst hN'
    have hfalse : inWindowB (86400 * 739417 + 43200) 739251 = false := by
      with_unfolding_all rfl
    rw [hfalse] at hw
    exact Bool.noConfusion hw,
   generate_report_empty_window _ _ (by
    intro p hp N hN hw m hm
    simp only [List.mem_singleton] at hp
    subst hp
    simp only at hN
    have hNv : parseDate "2024-01-01" = some 739251 := by decide
    rw [hNv] at hN
    have hN' : N = 739251 := (Option.some.inj hN).symm
    subst hN'
    have hfalse : inWindowB (86400 * 739417 + 43200) 739251 = false := by
      with_unfolding_all rfl
    rw [hfalse] at hw
    exact Bool.noConfusion hw)⟩

/-! ### C5: non-negativity of all stored durations -/

theorem mem_removeKey {α : Type} {l : List (String × α)} {k : String} {p : String × α}
    (hp : p ∈ removeKey l k) : p ∈ l := by
  induction l with
  | nil => simp [removeKey] at hp
  | cons q t ih =>
    by_cases hq : q.1 = k
    · rw [removeKey, if_pos hq] at hp
      exact List.mem_cons_of_mem _ hp
    · rw [removeKey, if_neg hq] at hp
      rcases List.mem_cons.mp hp with h | h
      · exact h ▸ List.mem_cons_self _ _
      · exact List.mem_cons_of_mem _ (ih h)

theorem keysOf_removeKey_sublist {α : Type} (l : List (String × α)) (k : String) :
    List.Sublist (keysOf (removeKey l k)) (keysOf l) := by
  induction l with
  | nil => simp [removeKey, keysOf]
  | cons q t ih =>
    by_cases hq : q.1 = k
    · rw [removeKey, if_pos hq]
      exact (List.sublist_cons_self _ _)
    · rw [removeKey, if_neg hq]
      exact List.Sublist.cons₂ _ ih

theorem nodup_keysOf_removeKey {α : Type} (l : List (String × α)) (k : String)
    (hnd : (keysOf l).Nodup) : (keysOf (removeKey l k)).Nodup :=
  hnd.sublist (keysOf_removeKey_sublist l k)

theorem dbNonneg_iff (db : DB) :
    dbNonneg db = true ↔ ∀ p ∈ db, valNonneg p.2 = true := by
  simp [dbNonneg, List.all_eq_true]

theorem valNonneg_day_iff (m : CatMap) :
    valNonneg (Val.day m) = true ↔ ∀ q ∈ m, 0 ≤ q.2 := by
  simp [valNonneg, List.all_eq_true]

theorem bump_nonneg {m : CatMap} {c : String} {v : Rat}
    (hm : ∀ q ∈ m, 0 ≤ q.2) (hv : 0 ≤ v) : ∀ q ∈ bump m c v, 0 ≤ q.2 := by
  intro q hq
  rcases mem_setKey hq with h | h
  · exact hm q h
  · subst h
    have h0 : 0 ≤ ((alookup m c).getD 0 : Rat) := by
      cases ha : alookup m c with
      | none => simp
      | some x => simpa using hm (c, x) (mem_of_alookup_eq_some ha)
    simpa using add_nonneg h0 hv

/-- Well-formedness, non-negativity and the active-session time bound, as one
invariant of running states. -/
def GoodState (s : DB × Rat) : Prop :=
  WF s.1 ∧ dbNonneg s.1 = true ∧
    ∀ c st, alookup s.1 "active" = some (.sess ⟨c, st⟩) → st ≤ s.2

theorem wf_setKey_active (db : DB) (s : Session) (hwf : WF db) :
    WF (setKey db "active" (.sess s)) := by
  obtain ⟨hnd, hall⟩ := hwf
  refine ⟨nodup_keysOf_setKey db "active" _ hnd, ?_⟩
  rw [List.all_eq_true] at hall ⊢
  intro p hp
  rcases mem_setKey hp with h | h
  · exact hall p h
  · subst h
    simp [isSessB]

theorem reach_goodState {s : DB × Rat} (h : Reach s) : GoodState s := by
  induction h with
  | init t => exact ⟨⟨by simp [keysOf], by simp⟩, by simp [dbNonneg], by simp [alookup]⟩
  | @start db t c t' h hle ih =>
    obtain ⟨hwf, hnn, hses⟩ := ih
    by_cases hact : (alookup db "active").isSome = true
    · refine ⟨?_, ?_, ?_⟩ <;> simp only [start_timer, if_pos hact]
      · exact hwf
      · exact hnn
      · exact fun c2 st2 hl => le_trans (hses c2 st2 hl) hle
    · refine ⟨?_, ?_, ?_⟩ <;> simp only [start_timer, if_neg hact]
      · exact wf_setKey_active db _ hwf
      · rw [dbNonneg_iff] at hnn ⊢
        intro p hp
        rcases mem_setKey hp with h | h
        · exact hnn p h
        · subst h
          simp [valNonneg]
      · intro c2 st2 hl
        rw [alookup_setKey_self] at hl
        simp only [Option.some.injEq, Val.sess.injEq, Session.mk.injEq] at hl
        exact le_of_eq hl.2.symm
  | @stop db t t' today h hle htoday ih =>
    obtain ⟨hwf, hnn, hses⟩ := ih
    have hta : today ≠ "active" := parseDate_isSome_ne_active htoday
    have hat : ("active" : String) ≠ today := fun hh => hta hh.symm
    cases hact : alookup db "active" with
    | none =>
      refine ⟨?_, ?_, ?_⟩ <;> simp only [stop_timer, hact]
      · exact hwf
      · exact hnn
      · intro c2 st2 hl
        exact Option.noConfusion hl
    | some v =>
      cases v with
      | day m =>
        refine ⟨?_, ?_, ?_⟩ <;> simp only [stop_timer, hact]
        · exact hwf
        · exact hnn
        · intro c2 st2 hl
          exact Val.noConfusion (Option.some.inj hl)
      | sess s =>
        have hst : s.start ≤ t' := le_trans (hses s.category s.start (by simpa using hact)) hle
        have hdur : 0 ≤ t' - s.start := by linarith
        obtain ⟨hnd, hall⟩ := hwf
        have hnd1 : (keysOf (removeKey db "active")).Nodup :=
          nodup_keysOf_removeKey db "active" hnd
        have hmnn : ∀ q ∈ (match alookup (removeKey db "active") today with
            | some (.day m) => m
            | some (.sess _) => []
            | none => []), 0 ≤ q.2 := by
          cases hm : alookup (removeKey db "active") today with
          | none => simp
          | some v2 =>
            cases v2 with
            | sess s2 => simp
            | day m2 =>
              have hmem : (today, Val.day m2) ∈ db := mem_removeKey (mem_of_alookup_eq_some hm)
              have := (dbNonneg_iff db).mp hnn _ hmem
              simpa using (valNonneg_day_iff m2).mp this
        refine ⟨?_, ?_, ?_⟩ <;> simp only [stop_timer, hact]
        · refine ⟨nodup_keysOf_setKey _ today _ hnd1, ?_⟩
          rw [List.all_eq_true] at hall ⊢
          intro p hp
          rcases mem_setKey hp with h | h
          · exact hall p (mem_removeKey h)
          · subst h
            simp [isSessB, hta]
        · rw [dbNonneg_iff] at hnn ⊢
          intro p hp
          rcases mem_setKey hp with h | h
          · exact hnn p (mem_removeKey h)
          · subst h
            rw [valNonneg_day_iff]
            exact bump_nonneg hmnn hdur
        · intro c2 st2 hl
          rw [alookup_setKey_ne _ today "active" _ hat,
            alookup_removeKey_self db "active" hnd] at hl
          exact Option.noConfusion hl
  | @report db t t' h hle ih =>
    obtain ⟨hwf, hnn, hses⟩ := ih
    exact ⟨hwf, hnn, fun c2 st2 hl => le_trans (hses c2 st2 hl) hle⟩

/-- C5: in every reachable state of the tracker -- the empty ledger
transformed by any sequence of `start`, `stop` and `report` invocations at
non-decreasing wall-clock times -- every accumulated duration value stored in
the ledger is non-negative. -/
theorem ledger_nonneg (db : DB) (t : Rat) (h : Reach (db, t)) : dbNonneg db = true :=
  (reach_goodState h).2.1

/-- C5 witness: the state reached by `start` at time 0 and `stop` at time
3600 has only non-negative stored durations. -/
theorem ledger_nonneg_witness :
    Reach ((stop_timer (start_timer [] "coding" 0).db 3600 "2024-06-15").db, 3600) ∧
      dbNonneg ((stop_timer (start_timer [] "coding" 0).db 3600 "2024-06-15").db) = true :=
  have hre : Reach ((stop_timer (start_timer [] "coding" 0).db 3600 "2024-06-15").db, 3600) :=
    Reach.stop (Reach.start "coding" (Reach.init 0) (le_refl 0)) (by norm_num) (by decide)
  ⟨hre, ledger_nonneg _ 3600 hre⟩

/-! ### C1: the report window -/

theorem alookup_append_ne {α : Type} (l : List (String × α)) (k s : String) (v : α)
    (h : s ≠ k) : alookup (l ++ [(k, v)]) s = alookup l s := by
  have hks : ¬ k = s := fun hh => h hh.symm
  induction l with
  | nil => simp [alookup, hks]
  | cons p t ih =>
    by_cases hp : p.1 = s <;> simp [alookup, hp, ih]

theorem inner_daily_isSome (l : List (String × Rat)) (k : String) :
    ∀ (acc : Totals × Daily) (s : String),
      (alookup (List.foldl (innerStep k) acc l).2 s).isSome = true ↔
        ((alookup acc.2 s).isSome = true ∨ (l ≠ [] ∧ s = k)) := by
  induction l with
  | nil => simp
  | cons p t ih =>
    intro acc s
    rw [List.foldl_cons, ih]
    by_cases hsk : s = k
    · subst hsk
      simp only [innerStep, alookup_setKey_self, Option.isSome_some]
      simp
    · have hstep : (alookup (innerStep k acc p).2 s).isSome = (alookup acc.2 s).isSome := by
        simp only [innerStep]
        rw [alookup_setKey_ne _ k s _ hsk]
        by_cases hpres : (alookup acc.2 k).isSome = true
        · rw [if_pos hpres]
        · rw [if_neg hpres, alookup_append_ne _ k s _ hsk]
      rw [hstep]
      simp [hsk]

theorem outer_daily_isSome (db : DB) (now : Rat) :
    ∀ (acc : Totals × Daily) (s : String),
      (alookup (List.foldl (outerStep now) acc db).2 s).isSome = true ↔
        ((alookup acc.2 s).isSome = true ∨ ∃ p ∈ db, dailyQualifies now s p) := by
  induction db with
  | nil => simp
  | cons p t ih =>
    intro acc s
    have hsplit : (∃ q ∈ p :: t, dailyQualifies now s q) ↔
        (dailyQualifies now s p ∨ ∃ q ∈ t, dailyQualifies now s q) := by
      constructor
      · rintro ⟨q, hq, hrest⟩
        rcases List.mem_cons.mp hq with h | h
        · exact .inl (h ▸ hrest)
        · exact .inr ⟨q, h, hrest⟩
      · rintro (h | ⟨q, hq, hrest⟩)
        · exact ⟨p, List.mem_cons_self _ _, h⟩
        · exact ⟨q, List.mem_cons_of_mem _ hq, hrest⟩
    rw [List.foldl_cons, ih, hsplit]
    by_cases ha : p.1 = "active"
    · have hP : ¬ dailyQualifies now s p := by
        rintro ⟨h1, h2, _⟩
        exact h2 (h1 ▸ ha)
      rw [show outerStep now acc p = acc from by rw [outerStep, if_pos ha]]
      tauto
    · cases hp : parseDate p.1 with
      | none =>
        have hP : ¬ dailyQualifies now s p := by
          rintro ⟨h1, _, ⟨N, hN, _⟩, _⟩
          rw [← h1, hp] at hN
          exact Option.noConfusion hN
        rw [show outerStep now acc p = acc from by rw [outerStep, if_neg ha]; simp [hp]]
        tauto
      | some N =>
        by_cases hw : inWindowB now N = true
        · cases hv : p.2 with
          | sess s2 =>
            have hP : ¬ dailyQualifies now s p := by
              rintro ⟨_, _, _, m, hm, _⟩
              rw [hv] at hm
              exact Val.noConfusion hm
            rw [show outerStep now acc p = acc from by
              rw [outerStep, if_neg ha]; simp [hp, hw, hv]]
            tauto
          | day m =>
            have hstep : outerStep now acc p = List.foldl (innerStep p.1) acc m := by
              rw [outerStep, if_neg ha]
              simp [hp, hw, hv]
            rw [hstep, inner_daily_isSome]
            have hP : dailyQualifies now s p ↔ (m ≠ [] ∧ s = p.1) := by
              constructor
              · rintro ⟨h1, _, _, m2, hm2, hm2ne⟩
                rw [hv] at hm2
                exact ⟨(Val.day.inj hm2) ▸ hm2ne, h1.symm⟩
              · rintro ⟨hmne, hsp⟩
                subst hsp
                exact ⟨rfl, fun hh => ha hh, ⟨N, hp, hw⟩, m, hv, hmne⟩
            rw [hP]
            tauto
        · have hP : ¬ dailyQualifies now s p := by
            rintro ⟨h1, _, ⟨N2, hN2, hw2⟩, _⟩
            rw [← h1, hp] at hN2
            cases Option.some.inj hN2
            exact hw hw2
          rw [show outerStep now acc p = acc from by
            rw [outerStep, if_neg ha]; simp [hp, hw]]
          tauto

/-- A date key appears in the aggregated daily logs precisely when it is a
non-`"active"` key of the database that parses to an in-window date and has
at least one category entry. -/
theorem aggregate_daily_isSome (db : DB) (now : Rat) (s : String) :
    (alookup (aggregate db now).2 s).isSome = true ↔
      ∃ p ∈ db, dailyQualifies now s p := by
  rw [aggregate, outer_daily_isSome]
  simp [alookup]

/-- C1 counterexample: at `now` = noon of 2024-06-15, the ledger entry dated
2024-06-08 -- exactly 7 days before `now` -- is NOT included in the report:
the code compares `now - 7 days` (which keeps the time of day) against
midnight of the entry's date, so the entry falls outside the window. -/
theorem claimC1_exact7_false : ¬ ClaimC1Exact7 := by
  intro h
  have hagg : (aggregate [("2024-06-08", Val.day [("coding", (3600 : Rat))])]
      (86400 * 739417 + 43200)).2 = [] := by
    with_unfolding_all rfl
  have hinst := h [("2024-06-08", Val.day [("coding", (3600 : Rat))])]
    (86400 * 739417 + 43200) "2024-06-08" 739410 [("coding", (3600 : Rat))]
    (by decide) rfl (by simp) (by decide)
    (by with_unfolding_all decide) (by with_unfolding_all decide)
  rw [hagg] at hinst
  simp [alookup] at hinst

/-- C1 amended: a date key `s` of the ledger parsing to day `N` (midnight at
second `86400 * N`) contributes to the report at `now` iff it has an entry
and `now - 7 days <= 86400 * N <= now` holds -- the window is compared
against the date's midnight, not the whole day.  Consequently: a date 8 or
more days old is always excluded, and a date exactly 7 days before `now` is
included only when `now` is exactly midnight, i.e. `now = 86400 * (N + 7)`. -/
theorem report_window (db : DB) (now : Rat) (s : String) (N : Nat) (m : CatMap)
    (hnd : (keysOf db).Nodup) (hs : alookup db s = some (.day m))
    (hN : parseDate s = some N) :
    ((alookup (aggregate db now).2 s).isSome = true ↔
      (m ≠ [] ∧ now - 604800 ≤ 86400 * (N : Rat) ∧ 86400 * (N : Rat) ≤ now)) ∧
    (86400 * ((N : Rat) + 8) ≤ now → alookup (aggregate db now).2 s = none) ∧
    (86400 * (N : Rat) ≤ now - 604800 → now - 604800 < 86400 * ((N : Rat) + 1) →
      ((alookup (aggregate db now).2 s).isSome = true ↔
        (m ≠ [] ∧ now = 86400 * ((N : Rat) + 7)))) := by
  have hmain : (alookup (aggregate db now).2 s).isSome = true ↔
      (m ≠ [] ∧ now - 604800 ≤ 86400 * (N : Rat) ∧ 86400 * (N : Rat) ≤ now) := by
    rw [aggregate_daily_isSome]
    constructor
    · rintro ⟨p, hp, hq⟩
      obtain ⟨k, v⟩ := p
      obtain ⟨h1, _, ⟨N2, hN2, hw2⟩, m2, hm2, hm2ne⟩ := hq
      simp only at h1 hm2
      subst h1
      have hv : alookup db k = some v := alookup_eq_some_of_mem hnd hp
      rw [hs] at hv
      have hvm : v = Val.day m := (Option.some.inj hv).symm
      rw [hvm] at hm2
      have hm2m : m2 = m := (Val.day.inj hm2).symm
      subst hm2m
      rw [hN] at hN2
      cases Option.some.inj hN2
      simp only [inWindowB, Bool.and_eq_true, decide_eq_true_eq] at hw2
      exact ⟨hm2ne, hw2.1, hw2.2⟩
    · rintro ⟨hm, h1, h2⟩
      refine ⟨(s, Val.day m), mem_of_alookup_eq_some hs, rfl,
        parseDate_isSome_ne_active (by simp [hN]), ⟨N, hN, ?_⟩, m, rfl, hm⟩
      simp only [inWindowB, Bool.and_eq_true, decide_eq_true_eq]
      exact ⟨h1, h2⟩
  refine ⟨hmain, ?_, ?_⟩
  · intro h8
    cases hcase : alookup (aggregate db now).2 s with
    | none => rfl
    | some v =>
      have : (alookup (aggregate db now).2 s).isSome = true := by simp [hcase]
      have hw := (hmain.mp this).2.1
      have hN8 : (86400 : Rat) * ((N : Rat) + 8) = 86400 * (N : Rat) + 691200 := by ring
      linarith
  · intro ha hb
    rw [hmain]
    constructor
    · rintro ⟨hm, h1, _⟩
      refine ⟨hm, ?_⟩
      have : now - 604800 = 86400 * (N : Rat) := le_antisymm h1 ha
      linarith [this]
    · rintro ⟨hm, heq⟩
      refine ⟨hm, by linarith, by linarith⟩

/-- C1 amended witness: an entry dated 2024-06-14, one day inside the window
of `now` = noon 2024-06-15, satisfies the window characterization. -/
theorem report_window_witness :
    (keysOf [("2024-06-14", Val.day [("coding", (3600 : Rat))])]).Nodup ∧
      (((alookup (aggregate [("2024-06-14", Val.day [("coding", (3600 : Rat))])]
            (86400 * 739417 + 43200)).2 "2024-06-14").isSome = true ↔
          ([("coding", (3600 : Rat))] ≠ [] ∧
            (86400 * 739417 + 43200 : Rat) - 604800 ≤ 86400 * ((739416 : Nat) : Rat) ∧
            86400 * ((739416 : Nat) : Rat) ≤ (86400 * 739417 + 43200 : Rat))) ∧
        (86400 * (((739416 : Nat) : Rat) + 8) ≤ (86400 * 739417 + 43200 : Rat) →
          alookup (aggregate [("2024-06-14", Val.day [("coding", (3600 : Rat))])]
            (86400 * 739417 + 43200)).2 "2024-06-14" = none) ∧
        (86400 * ((739416 : Nat) : Rat) ≤ (86400 * 739417 + 43200 : Rat) - 604800 →
          (86400 * 739417 + 43200 : Rat) - 604800 < 86400 * (((739416 : Nat) : Rat) + 1) →
          (((alookup (aggregate [("2024-06-14", Val.day [("coding", (3600 : Rat))])]
              (86400 * 739417 + 43200)).2 "2024-06-14").isSome = true ↔
            ([("coding", (3600 : Rat))] ≠ [] ∧
              (86400 * 739417 + 43200 : Rat) = 86400 * (((739416 : Nat) : Rat) + 7)))))) :=
  ⟨by decide,
    report_window [("2024-06-14", Val.day [("coding", (3600 : Rat))])]
      (86400 * 739417 + 43200) "2024-06-14" 739416 [("coding", (3600 : Rat))]
      (by decide) rfl (by decide)⟩

/-! ### C9: calendar order agrees with the day count -/

theorem isLeap_iff (y : Nat) :
    isLeap y = true ↔ ((y % 4 = 0 ∧ ¬ y % 100 = 0) ∨ y % 400 = 0) := by
  simp [isLeap]

set_option maxHeartbeats 1000000 in
theorem daysBeforeYear_succ (y : Nat) :
    daysBeforeYear (y + 1) = daysBeforeYear y + (if isLeap y = true then 366 else 365) := by
  by_cases hL : isLeap y = true
  · rw [if_pos hL]
    rw [isLeap_iff] at hL
    simp only [daysBeforeYear]
    omega
  · rw [if_neg hL]
    rw [isLeap_iff] at hL
    push_neg at hL
    simp only [daysBeforeYear]
    omega

theorem daysBeforeYear_le {a b : Nat} (h : a ≤ b) : daysBeforeYear a ≤ daysBeforeYear b := by
  induction h with
  | refl => exact le_refl _
  | @step m h ih =>
    rw [daysBeforeYear_succ m]
    exact le_trans ih (Nat.le_add_right _ _)

theorem dayOfYear_lt (y m d : Nat) (hm1 : 1 ≤ m) (hm2 : m ≤ 12) (hd : d ≤ monthLen y m) :
    daysBeforeMonth y m + (d - 1) < (if isLeap y = true then 366 else 365) := by
  interval_cases m <;>
    by_cases hL : isLeap y = true <;>
    simp [daysBeforeMonth, daysBeforeMonthBase, monthLen, hL] at hd ⊢ <;>
    omega

theorem daysBeforeMonth_mono (y ms mt ds dt : Nat) (h1 : 1 ≤ ms) (hlt : ms < mt)
    (h2 : mt ≤ 12) (hds : ds ≤ monthLen y ms) (hdt : 1 ≤ dt) :
    daysBeforeMonth y ms + (ds - 1) < daysBeforeMonth y mt + (dt - 1) := by
  have hms11 : ms ≤ 11 := by omega
  interval_cases ms <;> interval_cases mt <;>
    by_cases hL : isLeap y = true <;>
    simp [daysBeforeMonth, daysBeforeMonthBase, monthLen, hL] at hds ⊢ <;>
    omega

theorem toDays_lt_of_lex (ys ms ds yt mt dt : Nat)
    (hms : 1 ≤ ms) (hms2 : ms ≤ 12) (hds1 : 1 ≤ ds) (hds : ds ≤ monthLen ys ms)
    (hmt : 1 ≤ mt) (hmt2 : mt ≤ 12) (hdt1 : 1 ≤ dt) (hdt : dt ≤ monthLen yt mt)
    (hlex : ys < yt ∨ (ys = yt ∧ (ms < mt ∨ (ms = mt ∧ ds < dt)))) :
    toDays ys ms ds < toDays yt mt dt := by
  rcases hlex with hy | ⟨rfl, hm | ⟨rfl, hd⟩⟩
  · have hdy := dayOfYear_lt ys ms ds hms hms2 hds
    have h1 : toDays ys ms ds < daysBeforeYear (ys + 1) := by
      unfold toDays
      rw [daysBeforeYear_succ]
      by_cases hL : isLeap ys = true <;> simp [hL] at hdy ⊢ <;> omega
    have h2 : daysBeforeYear (ys + 1) ≤ daysBeforeYear yt := daysBeforeYear_le hy
    have h3 : daysBeforeYear yt ≤ toDays yt mt dt := by
      unfold toDays
      omega
    omega
  · have := daysBeforeMonth_mono ys ms mt ds dt hms hm hmt2 hds hdt1
    unfold toDays
    omega
  · unfold toDays
    omega

theorem isDigitB_bounds {c : Char} (h : isDigitB c = true) :
    48 ≤ c.toNat ∧ c.toNat ≤ 57 := by
  simpa [isDigitB] using h

theorem parseDate_spec {s : String} {N : Nat} (h : parseDate s = some N) :
    ∃ c1 c2 c3 c4 c5 c6 c7 c8,
      s.data = [c1, c2, c3, c4, '-', c5, c6, '-', c7, c8] ∧
      (isDigitB c1 = true ∧ isDigitB c2 = true ∧ isDigitB c3 = true ∧ isDigitB c4 = true ∧
        isDigitB c5 = true ∧ isDigitB c6 = true ∧ isDigitB c7 = true ∧ isDigitB c8 = true) ∧
      1 ≤ 10 * digitVal c5 + digitVal c6 ∧ 10 * digitVal c5 + digitVal c6 ≤ 12 ∧
      1 ≤ 10 * digitVal c7 + digitVal c8 ∧
      10 * digitVal c7 + digitVal c8 ≤
        monthLen (1000 * digitVal c1 + 100 * digitVal c2 + 10 * digitVal c3 + digitVal c4)
          (10 * digitVal c5 + digitVal c6) ∧
      N = toDays (1000 * digitVal c1 + 100 * digitVal c2 + 10 * digitVal c3 + digitVal c4)
        (10 * digitVal c5 + digitVal c6) (10 * digitVal c7 + digitVal c8) := by
  unfold parseDate parseDateChars at h
  split at h
  next c1 c2 c3 c4 h1c c5 c6 h2c c7 c8 hdata =>
    split at h
    next hcond =>
      obtain ⟨hh1, hh2, hd1, hd2, hd3, hd4, hd5, hd6, hd7, hd8⟩ := hcond
      subst hh1
      subst hh2
      dsimp only at h
      split at h
      next hvalid =>
        obtain ⟨hm1, hm2, hdd1, hdd2⟩ := hvalid
        exact ⟨c1, c2, c3, c4, c5, c6, c7, c8, hdata,
          ⟨hd1, hd2, hd3, hd4, hd5, hd6, hd7, hd8⟩, hm1, hm2, hdd1, hdd2,
          (Option.some.inj h).symm⟩
      next => exact absurd h (by simp)
    next => exact absurd h (by simp)
  next => exact absurd h (by simp)

theorem char_lt_iff_toNat (a b : Char) : a < b ↔ a.toNat < b.toNat := by
  rw [Char.lt_iff_val_lt_val, UInt32.lt_def, BitVec.lt_def]
  exact Iff.rfl

theorem char_eq_iff_toNat (a b : Char) : a = b ↔ a.toNat = b.toNat := by
  constructor
  · intro h
    rw [h]
  · intro h
    have := congrArg Char.ofNat h
    simpa [Char.ofNat_toNat] using this

theorem charList_lt_nil_iff (l : List Char) : l < ([] : List Char) ↔ False := by
  constructor
  · intro h
    cases h
  · intro h
    exact h.elim

theorem charList_lt_cons_iff (a b : Char) (as bs : List Char) :
    (a :: as) < (b :: bs) ↔ (a < b ∨ (a = b ∧ as < bs)) := by
  constructor
  · intro h
    cases h with
    | cons h => exact .inr ⟨rfl, h⟩
    | rel h => exact .inl h
  · rintro (h | ⟨rfl, h⟩)
    · exact List.Lex.rel h
    · exact List.Lex.cons h

set_option maxHeartbeats 1000000 in
theorem parseDate_lt {s t : String} {Ns Nt : Nat}
    (hs : parseDate s = some Ns) (ht : parseDate t = some Nt) (hst : s < t) :
    Ns < Nt := by
  obtain ⟨a1, a2, a3, a4, a5, a6, a7, a8, hda, hdiga, ham1, ham2, had1, had2, hNa⟩ :=
    parseDate_spec hs
  obtain ⟨b1, b2, b3, b4, b5, b6, b7, b8, hdb, hdigb, hbm1, hbm2, hbd1, hbd2, hNb⟩ :=
    parseDate_spec ht
  rw [String.lt_iff_toList_lt] at hst
  rw [show s.toList = s.data from rfl, show t.toList = t.data from rfl, hda, hdb] at hst
  simp only [charList_lt_cons_iff, charList_lt_nil_iff, or_false, char_lt_iff_toNat,
    char_eq_iff_toNat, show ('-' : Char).toNat = 45 from rfl] at hst
  obtain ⟨ha1, ha1'⟩ := isDigitB_bounds hdiga.1
  obtain ⟨ha2, ha2'⟩ := isDigitB_bounds hdiga.2.1
  obtain ⟨ha3, ha3'⟩ := isDigitB_bounds hdiga.2.2.1
  obtain ⟨ha4, ha4'⟩ := isDigitB_bounds hdiga.2.2.2.1
  obtain ⟨ha5, ha5'⟩ := isDigitB_bounds hdiga.2.2.2.2.1
  obtain ⟨ha6, ha6'⟩ := isDigitB_bounds hdiga.2.2.2.2.2.1
  obtain ⟨ha7, ha7'⟩ := isDigitB_bounds hdiga.2.2.2.2.2.2.1
  obtain ⟨ha8, ha8'⟩ := isDigitB_bounds hdiga.2.2.2.2.2.2.2
  obtain ⟨hb1, hb1'⟩ := isDigitB_bounds hdigb.1
  obtain ⟨hb2, hb2'⟩ := isDigitB_bounds hdigb.2.1
  obtain ⟨hb3, hb3'⟩ := isDigitB_bounds hdigb.2.2.1
  obtain ⟨hb4, hb4'⟩ := isDigitB_bounds hdigb.2.2.2.1
  obtain ⟨hb5, hb5'⟩ := isDigitB_bounds hdigb.2.2.2.2.1
  obtain ⟨hb6, hb6'⟩ := isDigitB_bounds hdigb.2.2.2.2.2.1
  obtain ⟨hb7, hb7'⟩ := isDigitB_bounds hdigb.2.2.2.2.2.2.1
  obtain ⟨hb8, hb8'⟩ := isDigitB_bounds hdigb.2.2.2.2.2.2.2
  rw [hNa, hNb]
  apply toDays_lt_of_lex _ _ _ _ _ _ ham1 ham2 had1 had2 hbm1 hbm2 hbd1 hbd2
  simp only [digitVal] at *
  rcases hst with h | ⟨e1, hst⟩
  · left
    omega
  rcases hst with h | ⟨e2, hst⟩
  · left
    omega
  rcases hst with h | ⟨e3, hst⟩
  · left
    omega
  rcases hst with h | ⟨e4, hst⟩
  · left
    omega
  rcases hst with h | ⟨-, hst⟩
  · exact absurd h (by omega)
  rcases hst with h | ⟨e5, hst⟩
  · right
    exact ⟨by omega, Or.inl (by omega)⟩
  rcases hst with h | ⟨e6, hst⟩
  · right
    exact ⟨by omega, Or.inl (by omega)⟩
  rcases hst with h | ⟨-, hst⟩
  · exact absurd h (by omega)
  rcases hst with h | ⟨e7, hst⟩
  · right
    exact ⟨by omega, Or.inr ⟨by omega, by omega⟩⟩
  rcases hst with h | ⟨e8, hF⟩
  · right
    exact ⟨by omega, Or.inr ⟨by omega, by omega⟩⟩
  · exact hF.elim

theorem nodup_keysOf_append_single {α : Type} (l : List (String × α)) (k : String) (v : α)
    (hnd : (keysOf l).Nodup) (hk : k ∉ keysOf l) : (keysOf (l ++ [(k, v)])).Nodup := by
  have hkeys : keysOf (l ++ [(k, v)]) = keysOf l ++ [k] := by simp [keysOf]
  rw [hkeys]
  refine hnd.append (List.nodup_singleton k) ?_
  intro a ha hb
  rw [List.mem_singleton] at hb
  subst hb
  exact hk ha

theorem inner_daily_keys (G : String → Prop) (l : List (String × Rat)) (k : String)
    (hk : G k) : ∀ (acc : Totals × Daily), (∀ p ∈ acc.2, G p.1) →
      ∀ p ∈ (List.foldl (innerStep k) acc l).2, G p.1 := by
  induction l with
  | nil => exact fun acc hacc => hacc
  | cons q t ih =>
    intro acc hacc
    rw [List.foldl_cons]
    apply ih
    intro p hp
    simp only [innerStep] at hp
    rcases mem_setKey hp with h | h
    · by_cases hpres : (alookup acc.2 k).isSome = true
      · rw [if_pos hpres] at h
        exact hacc p h
      · rw [if_neg hpres] at h
        rcases List.mem_append.mp h with h2 | h2
        · exact hacc p h2
        · rw [List.mem_singleton] at h2
          subst h2
          exact hk
    · subst h
      exact hk

theorem outer_daily_keys (now : Rat) (db : DB) :
    ∀ (acc : Totals × Daily),
      (∀ p ∈ acc.2, ∃ N, parseDate p.1 = some N ∧ inWindowB now N = true) →
      ∀ p ∈ (List.foldl (outerStep now) acc db).2,
        ∃ N, parseDate p.1 = some N ∧ inWindowB now N = true := by
  induction db with
  | nil => exact fun acc hacc => hacc
  | cons q t ih =>
    intro acc hacc
    rw [List.foldl_cons]
    apply ih
    unfold outerStep
    by_cases ha : q.1 = "active"
    · rw [if_pos ha]
      exact hacc
    · rw [if_neg ha]
      cases hp : parseDate q.1 with
      | none => exact hacc
      | some N =>
        dsimp only
        by_cases hw : inWindowB now N = true
        · rw [if_pos hw]
          cases hv : q.2 with
          | sess s2 => exact hacc
          | day m =>
            exact inner_daily_keys
              (fun s => ∃ N, parseDate s = some N ∧ inWindowB now N = true)
              m q.1 ⟨N, hp, hw⟩ acc hacc
        · rw [if_neg hw]
          exact hacc

theorem inner_daily_nodup (l : List (String × Rat)) (k : String) :
    ∀ (acc : Totals × Daily), (keysOf acc.2).Nodup →
      (keysOf (List.foldl (innerStep k) acc l).2).Nodup := by
  induction l with
  | nil => exact fun acc hacc => hacc
  | cons q t ih =>
    intro acc hacc
    rw [List.foldl_cons]
    apply ih
    show (keysOf (setKey _ k _)).Nodup
    apply nodup_keysOf_setKey
    by_cases hpres : (alookup acc.2 k).isSome = true
    · rw [if_pos hpres]
      exact hacc
    · rw [if_neg hpres]
      refine nodup_keysOf_append_single acc.2 k [] hacc ?_
      intro hmem
      exact hpres ((isSome_alookup_iff acc.2 k).mpr hmem)

theorem outer_daily_nodup (now : Rat) (db : DB) :
    ∀ (acc : Totals × Daily), (keysOf acc.2).Nodup →
      (keysOf (List.foldl (outerStep now) acc db).2).Nodup := by
  induction db with
  | nil => exact fun acc hacc => hacc
  | cons q t ih =>
    intro acc hacc
    rw [List.foldl_cons]
    apply ih
    unfold outerStep
    by_cases ha : q.1 = "active"
    · rw [if_pos ha]
      exact hacc
    · rw [if_neg ha]
      cases hp : parseDate q.1 with
      | none => exact hacc
      | some N =>
        dsimp only
        by_cases hw : inWindowB now N = true
        · rw [if_pos hw]
          cases hv : q.2 with
          | sess s2 => exact hacc
          | day m => exact inner_daily_nodup m q.1 acc hacc
        · rw [if_neg hw]
          exact hacc

/-- C9: in the rendered report, the chart input `hours` is the totals
converted to hours and rounded to two decimals; the top-level table has
exactly one row per in-window category (a permutation of `hours`), sorted by
descending rounded hours; and the Daily Logs section has exactly one
subsection per in-window day of `daily_logs` (a permutation of the
aggregated daily logs, each subsection carrying that day's rows verbatim, in
the mapping's insertion order), with the days ordered most recent first. -/
theorem report_rendering (db : DB) (now : Rat) (r : Report)
    (h : generate_report db now = some r) :
    r.hours = (aggregate db now).1.map (fun p => (p.1, round2 (p.2 / 3600))) ∧
    List.Perm r.table_rows r.hours ∧
    r.table_rows.Pairwise (fun a b => b.2 ≤ a.2) ∧
    List.Perm r.day_sections (aggregate db now).2 ∧
    (∀ p ∈ r.day_sections, ∃ N, parseDate p.1 = some N ∧ inWindowB now N = true) ∧
    (∀ p ∈ r.day_sections, alookup (aggregate db now).2 p.1 = some p.2) ∧
    r.day_sections.Pairwise (fun a b => ∀ Na Nb, parseDate a.1 = some Na →
      parseDate b.1 = some Nb → Nb < Na) := by
  unfold generate_report at h
  dsimp only at h
  split at h
  next => exact absurd h (by simp)
  next hne =>
    have hr := (Option.some.inj h).symm
    subst hr
    have hdnodup : (keysOf (aggregate db now).2).Nodup := by
      refine outer_daily_nodup now db ([], []) ?_
      simp [keysOf]
    have hdkeys : ∀ p ∈ (aggregate db now).2,
        ∃ N, parseDate p.1 = some N ∧ inWindowB now N = true := by
      refine outer_daily_keys now db ([], []) ?_
      simp
    have htransR : ∀ (a b c : String × Rat),
        (fun a b : String × Rat => decide (b.2 ≤ a.2)) a b →
        (fun a b : String × Rat => decide (b.2 ≤ a.2)) b c →
        (fun a b : String × Rat => decide (b.2 ≤ a.2)) a c := by
      intro a b c hab hbc
      simp only [decide_eq_true_eq] at hab hbc ⊢
      exact le_trans hbc hab
    have htotalR : ∀ (a b : String × Rat),
        ((fun a b : String × Rat => decide (b.2 ≤ a.2)) a b ||
          (fun a b : String × Rat => decide (b.2 ≤ a.2)) b a) := by
      intro a b
      simp only [Bool.or_eq_true, decide_eq_true_eq]
      exact le_total b.2 a.2
    have htransS : ∀ (a b c : String × CatMap),
        (fun a b : String × CatMap => decide (b.1 ≤ a.1)) a b →
        (fun a b : String × CatMap => decide (b.1 ≤ a.1)) b c →
        (fun a b : String × CatMap => decide (b.1 ≤ a.1)) a c := by
      intro a b c hab hbc
      simp only [decide_eq_true_eq] at hab hbc ⊢
      exact le_trans hbc hab
    have htotalS : ∀ (a b : String × CatMap),
        ((fun a b : String × CatMap => decide (b.1 ≤ a.1)) a b ||
          (fun a b : String × CatMap => decide (b.1 ≤ a.1)) b a) := by
      intro a b
      simp only [Bool.or_eq_true, decide_eq_true_eq]
      exact le_total b.1 a.1
    have hpermD : List.Perm
        ((aggregate db now).2.mergeSort (fun a b => decide (b.1 ≤ a.1)))
        (aggregate db now).2 :=
      List.mergeSort_perm _ _
    refine ⟨rfl, List.mergeSort_perm _ _, ?_, hpermD, ?_, ?_, ?_⟩
    · have hs := List.sorted_mergeSort htransR htotalR
        ((aggregate db now).1.map (fun p => (p.1, round2 (p.2 / 3600))))
      exact hs.imp (fun hab => by simpa using hab)
    · intro p hp
      exact hdkeys p (hpermD.mem_iff.mp hp)
    · intro p hp
      exact alookup_eq_some_of_mem hdnodup (hpermD.mem_iff.mp hp)
    · have hs := List.sorted_mergeSort htransS htotalS (aggregate db now).2
      have hple : ((aggregate db now).2.mergeSort
          (fun a b => decide (b.1 ≤ a.1))).Pairwise (fun a b => b.1 ≤ a.1) :=
        hs.imp (fun hab => by simpa using hab)
      have hknd : (keysOf ((aggregate db now).2.mergeSort
          (fun a b => decide (b.1 ≤ a.1)))).Nodup := by
        have hpm := hpermD.map Prod.fst
        exact (hpm.nodup_iff).mpr hdnodup
      have hne2 : ((aggregate db now).2.mergeSort
          (fun a b => decide (b.1 ≤ a.1))).Pairwise (fun a b => a.1 ≠ b.1) := by
        have := hknd
        rw [keysOf, List.Nodup, List.pairwise_map] at this
        exact this
      refine (hple.and hne2).imp_of_mem ?_
      intro a b _ _ hab Na Nb hNa hNb
      have hlt : b.1 < a.1 := lt_of_le_of_ne hab.1 (fun hh => hab.2 hh.symm)
      exact parseDate_lt hNb hNa hlt

/-- C9 witness: the report rendered from a one-day, one-category ledger
satisfies the rendering characterization. -/
theorem report_rendering_witness :
    generate_report [("2024-06-14", Val.day [("coding", (3600 : Rat))])]
        (86400 * 739417 + 43200) =
      some ⟨[("coding", round2 (3600 / 3600))], [("coding", round2 (3600 / 3600))],
        [("2024-06-14", [("coding", (3600 : Rat))])]⟩ ∧
      ([("coding", round2 ((3600 : Rat) / 3600))] =
        (aggregate [("2024-06-14", Val.day [("coding", (3600 : Rat))])]
          (86400 * 739417 + 43200)).1.map (fun p => (p.1, round2 (p.2 / 3600))) ∧
      List.Perm [("coding", round2 ((3600 : Rat) / 3600))]
        [("coding", round2 ((3600 : Rat) / 3600))] ∧
      List.Pairwise (fun a b => b.2 ≤ a.2) [("coding", round2 ((3600 : Rat) / 3600))] ∧
      List.Perm [("2024-06-14", [("coding", (3600 : Rat))])]
        (aggregate [("2024-06-14", Val.day [("coding", (3600 : Rat))])]
          (86400 * 739417 + 43200)).2 ∧
      (∀ p ∈ [("2024-06-14", [("coding", (3600 : Rat))])],
        ∃ N, parseDate p.1 = some N ∧ inWindowB (86400 * 739417 + 43200) N = true) ∧
      (∀ p ∈ [("2024-06-14", [("coding", (3600 : Rat))])],
        alookup (aggregate [("2024-06-14", Val.day [("coding", (3600 : Rat))])]
          (86400 * 739417 + 43200)).2 p.1 = some p.2) ∧
      List.Pairwise (fun a b => ∀ Na Nb, parseDate a.1 = some Na →
          parseDate b.1 = some Nb → Nb < Na)
        [("2024-06-14", [("coding", (3600 : Rat))])]) :=
  have hagg : aggregate [("2024-06-14", Val.day [("coding", (3600 : Rat))])]
      (86400 * 739417 + 43200) =
      ([("coding", (3600 : Rat))], [("2024-06-14", [("coding", (3600 : Rat))])]) := by
    with_unfolding_all rfl
  have hrep : generate_report [("2024-06-14", Val.day [("coding", (3600 : Rat))])]
      (86400 * 739417 + 43200) =
      some ⟨[("coding", round2 (3600 / 3600))], [("coding", round2 (3600 / 3600))],
        [("2024-06-14", [("coding", (3600 : Rat))])]⟩ := by
    simp only [generate_report]
    rw [hagg]
    simp [List.mergeSort_singleton]
  ⟨hrep, report_rendering [("2024-06-14", Val.day [("coding", (3600 : Rat))])]
    (86400 * 739417 + 43200)
    ⟨[("coding", round2 (3600 / 3600))], [("coding", round2 (3600 / 3600))],
      [("2024-06-14", [("coding", (3600 : Rat))])]⟩ hrep⟩
